import Mathlib

/-!
Verification of the watchdog recovery subsystem
(src/service/client/watchdog_client.rs).

The watchdog's per-cycle behaviour is embedded shallowly:

* the stall-detection aggregation pipeline (sort by timestamp descending,
  group by event key taking the first stage and status and counting recent
  documents, then match count = 0, stage not Finished, status Succeeded)
  becomes a pure function over lists of context documents;
* the context-tree reconstruction (refreshing the pipeline and extractor
  maps embedded in the root context's stage) becomes a fold in the Except
  monad over abstract fetch functions;
* the republish guard (lpos membership check, then lpush to the head)
  becomes a pure step on a list modelling the Redis queue;
* the poll-loop body becomes a function from an environment of fetch
  results to the cycle outcome, distinguishing per-candidate skips
  (continue), fatal propagation (the question-mark operator) and whether
  the end-of-loop sleep is reached.

The context/event data types are not part of the sources provided, only
their consumer is; they are modelled from the specification's data model
section (section 3 of the spec).
-/

namespace Watchdog

/-- Modelled from the spec: outcome classifier of a context document
(Succeeded, Failed, Dropped). -/
inductive Status where
  | Succeeded
  | Failed
  | Dropped
deriving DecidableEq, Repr

/-- Modelled from the spec: the tag of a stage variant as it appears on a
stored context document (root stages Created, ProcessingPipelines,
Finished; pipeline stage ExecutingExtractors).  The aggregation's match
stage compares this tag against the string Finished. -/
inductive StageTag where
  | Created
  | ProcessingPipelines
  | ExecutingExtractors
  | Finished
deriving DecidableEq, Repr

/-- Modelled from the spec: one stored context document as seen by the
stall-detection aggregation: its event key, stage tag, status and
timestamp (milliseconds). -/
structure CtxDoc where
  eventKey : String
  stage : StageTag
  status : Status
  timestamp : Int
deriving DecidableEq, Repr

/-- Timestamps in descending order: a comes no later than b in the sorted
output when b's timestamp is at most a's. -/
def tsGE (a b : CtxDoc) : Prop := b.timestamp ≤ a.timestamp

instance : DecidableRel tsGE := fun a b => Int.decLe b.timestamp a.timestamp

instance : IsTotal CtxDoc tsGE := ⟨fun a b => le_total b.timestamp a.timestamp⟩

instance : IsTrans CtxDoc tsGE := ⟨fun _ _ _ h h2 => le_trans h2 h⟩

/-- The aggregation's first stage: sort all context documents by
timestamp descending (a stable sort, modelling the Mongo sort stage). -/
def sortByTsDesc (docs : List CtxDoc) : List CtxDoc :=
  List.insertionSort tsGE docs

/-- The documents of one event-key group, in the order of the sorted
input (the group stage partitions the sorted stream by event key). -/
def groupOf (sorted : List CtxDoc) (k : String) : List CtxDoc :=
  sorted.filter (fun d => decide (d.eventKey = k))

/-- The aggregation's group accumulator and match stage for one group:
stage and status are taken from the first (latest) document after the
sort; count sums the documents with timestamp strictly greater than the
cutoff; the group passes the match when count = 0, the latest stage is
not Finished and the latest status is Succeeded. -/
def isStallGroup (cutoff : Int) : List CtxDoc → Bool
  | [] => false
  | first :: rest =>
    ((first :: rest).countP (fun d => decide (cutoff < d.timestamp)) == 0)
      && decide (¬ first.stage = StageTag.Finished)
      && decide (first.status = Status.Succeeded)

/-- The stall-detection aggregation: the event keys (in first-appearance
order of the sorted stream, one entry per key) whose group passes the
match stage. -/
def stallCandidates (docs : List CtxDoc) (cutoff : Int) : List String :=
  (((sortByTsDesc docs).map (·.eventKey)).dedup).filter
    (fun k => isStallGroup cutoff (groupOf (sortByTsDesc docs) k))

/-- The liveness cutoff computed each cycle: now in milliseconds minus the
event timeout in seconds converted to milliseconds. -/
def stallCutoff (nowMillis : Int) (eventTimeoutSecs : Int) : Int :=
  nowMillis - eventTimeoutSecs * 1000

/-! ### Context tree data model

Modelled from the spec: the three context levels, with the in-progress
stage variants carrying a map from child key to the last known child
snapshot.  The maps are modelled as ordered association lists, insertion
replacing an existing binding in place and appending a fresh key at the
end. -/

/-- A finite map from string keys to values, as an association list. -/
abbrev PMap (α : Type) := List (String × α)

/-- Insert a binding: replace the value in place when the key is present,
append the binding otherwise. -/
def mapInsert {α : Type} (k : String) (v : α) : PMap α → PMap α
  | [] => [(k, v)]
  | (k0, v0) :: rest =>
    if k0 = k then (k, v) :: rest else (k0, v0) :: mapInsert k v rest

/-- Look a key up in an association-list map. -/
def mapLookup {α : Type} (k : String) : PMap α → Option α
  | [] => none
  | (k0, v) :: rest => if k0 = k then some v else mapLookup k rest

/-- The keys of an association-list map, in order. -/
def keysOf {α : Type} (m : PMap α) : List String := m.map Prod.fst

/-- The values of an association-list map, in order. -/
def valsOf {α : Type} (m : PMap α) : List α := m.map Prod.snd

/-- Modelled from the spec: an extractor context document (leaf level):
its scope keys, status and timestamp. -/
structure ExtractorContext where
  event_key : String
  pipeline_key : String
  extractor_key : String
  status : Status
  timestamp : Int
deriving Repr

/-- Modelled from the spec: a pipeline context's stage, the in-progress
variant carrying the map from extractor key to last known extractor
snapshot. -/
inductive PipelineStage where
  | Created
  | ExecutingExtractors (extractors : PMap ExtractorContext)
  | Finished
deriving Repr

/-- Modelled from the spec: a pipeline context document. -/
structure PipelineContext where
  event_key : String
  pipeline_key : String
  stage : PipelineStage
  status : Status
  timestamp : Int
deriving Repr

/-- Modelled from the spec: a root context's stage, the in-progress
variant carrying the map from pipeline key to last known pipeline
snapshot. -/
inductive RootStage where
  | Created
  | ProcessingPipelines (pipelines : PMap PipelineContext)
  | Finished
deriving Repr

/-- Modelled from the spec: a root context document. -/
structure RootContext where
  event_key : String
  stage : RootStage
  status : Status
  timestamp : Int
deriving Repr

/-- Modelled from the spec: the immutable event payload, keyed by the
event key. -/
structure Event where
  key : String
  payload : String
deriving DecidableEq, Repr

/-- Modelled from the spec: the ephemeral envelope pairing one event with
one reconstructed root context, serialized for re-queue. -/
structure EventWithContext where
  event : Event
  context : RootContext
deriving Repr

/-- A serialized envelope: a byte sequence (bytes as naturals). -/
abbrev Payload := List Nat

/-! ### The external world of one poll cycle -/

/-- The outcome of one store fetch: transport error, no matching
document, or a found document. -/
inductive FetchRes (α : Type) where
  | err
  | notFound
  | found (a : α)
deriving Repr

/-- The external stores as the watchdog sees them during one cycle: the
latest-document fetches of the context log (by the filters the code
builds), the event-store lookup by id, the serializer, and the failure
behaviour of the two Redis list operations. -/
structure Env where
  rootFetch : String → FetchRes RootContext
  pipelineFetch : String → String → FetchRes PipelineContext
  extractorFetch : String → String → String → FetchRes ExtractorContext
  eventFetch : String → FetchRes Event
  serialize : EventWithContext → Option Payload
  lposErr : Payload → Bool
  lpushErr : Payload → Bool

/-! ### Context tree reconstruction (watchdog_client.rs lines 187 to 245)

For a root in ProcessingPipelines, the code fetches, for every embedded
pipeline value p, the latest pipeline document filtered by p's own
event key and pipeline key; a fetched pipeline in ExecutingExtractors
has each embedded extractor value e refreshed by a fetch filtered by e's
own keys.  Every fetched child is inserted back under the fetched
document's own key field.  Any error or missing document abandons the
event key (continue to the outer loop): a partially refreshed tree is
never observed. -/

/-- Refresh the extractor map of one fetched pipeline context: fetch each
embedded extractor value by its own scope keys and insert the result
under the fetched document's extractor key; fail on the first error or
missing document. -/
def refreshExtractorsGo (env : Env) (m : PMap ExtractorContext) :
    List ExtractorContext → Except Unit (PMap ExtractorContext)
  | [] => .ok m
  | e :: rest =>
    match env.extractorFetch e.event_key e.pipeline_key e.extractor_key with
    | .found c => refreshExtractorsGo env (mapInsert c.extractor_key c m) rest
    | _ => .error ()

/-- Refresh a whole embedded extractor map. -/
def refreshExtractors (env : Env) (exts : PMap ExtractorContext) :
    Except Unit (PMap ExtractorContext) :=
  refreshExtractorsGo env exts (valsOf exts)

/-- Refresh one freshly fetched pipeline context: when its stage is
ExecutingExtractors, refresh the embedded extractor map; other stages
are leaves and are returned unchanged. -/
def refreshPipeline (env : Env) (c : PipelineContext) :
    Except Unit PipelineContext :=
  match c.stage with
  | .ExecutingExtractors exts =>
    (refreshExtractors env exts).map
      (fun exts2 => { c with stage := .ExecutingExtractors exts2 })
  | _ => .ok c

/-- Refresh the pipeline map of a root context: fetch each embedded
pipeline value by its own event key and pipeline key, refresh the
fetched context's extractors, and insert the result under the fetched
document's pipeline key; fail on the first error or missing document. -/
def refreshPipelinesGo (env : Env) (m : PMap PipelineContext) :
    List PipelineContext → Except Unit (PMap PipelineContext)
  | [] => .ok m
  | p :: rest =>
    match env.pipelineFetch p.event_key p.pipeline_key with
    | .found c =>
      match refreshPipeline env c with
      | .ok c2 => refreshPipelinesGo env (mapInsert c2.pipeline_key c2 m) rest
      | .error _ => .error ()
    | _ => .error ()

/-- Refresh a whole embedded pipeline map. -/
def refreshPipelines (env : Env) (ps : PMap PipelineContext) :
    Except Unit (PMap PipelineContext) :=
  refreshPipelinesGo env ps (valsOf ps)

/-- Reconstruct one root context: only the ProcessingPipelines stage
triggers any child fetch; every other stage returns the root exactly as
fetched. -/
def reconstruct (env : Env) (root : RootContext) : Except Unit RootContext :=
  match root.stage with
  | .ProcessingPipelines ps =>
    (refreshPipelines env ps).map
      (fun ps2 => { root with stage := .ProcessingPipelines ps2 })
  | _ => .ok root

/-! ### Republish guard (watchdog_client.rs lines 267 to 287)

The code asks Redis for the position of the exact payload bytes in the
queue list (lpos); an error there propagates with the question-mark
operator and is fatal to the run.  A present payload is skipped with a
warning.  An absent payload is pushed to the head of the list (lpush); a
push error is logged and the loop continues without counting. -/

/-- How one candidate's queue interaction ended. -/
inductive PushFlag where
  | fatal
  | dedup
  | pushFail
  | pushed
deriving DecidableEq, Repr

/-- The queue interaction for one serialized payload: membership check
first (fatal on error), then an idempotent skip when the payload is
already present byte for byte, then a head push (logged and skipped on
error). -/
def queueStep (lposFails lpushFails : Payload → Bool) (queue : List Payload)
    (p : Payload) : List Payload × PushFlag :=
  if lposFails p then (queue, .fatal)
  else if p ∈ queue then (queue, .dedup)
  else if lpushFails p then (queue, .pushFail)
  else (p :: queue, .pushed)

/-! ### The poll-loop body (watchdog_client.rs lines 98 to 295) -/

/-- One row of the aggregation cursor as the loop sees it: the group id
is absent, present but not a BSON string, or a string event key. -/
inductive AggEntry where
  | missingId
  | nonStringId
  | strId (k : String)
deriving DecidableEq, Repr

/-- The mutable state of one poll cycle: the queue contents, the success
tally, and the log of successful pushes tagged with the event key they
were made for. -/
structure CycleState where
  queue : List Payload
  count : Nat
  pushes : List (String × Payload)
deriving DecidableEq, Repr

/-- Processing of one candidate row: ok means the loop continues (the
candidate was either completed or skipped with continue); error means a
question-mark operator propagated and the run aborts with the state at
that point.  Mirrors lines 154 to 288 of watchdog_client.rs. -/
def stepCand (env : Env) (s : CycleState) (entry : AggEntry) :
    Except CycleState CycleState :=
  match entry with
  | .strId ek =>
    match env.rootFetch ek with
    | .err => .ok s
    | .notFound => .ok s
    | .found root =>
      match reconstruct env root with
      | .error _ => .ok s
      | .ok root2 =>
        match env.eventFetch ek with
        | .err => .error s
        | .notFound => .ok s
        | .found ev =>
          match env.serialize { event := ev, context := root2 } with
          | none => .ok s
          | some payload =>
            match queueStep env.lposErr env.lpushErr s.queue payload with
            | (_, .fatal) => .error s
            | (_, .dedup) => .ok s
            | (_, .pushFail) => .ok s
            | (q2, .pushed) =>
              .ok { queue := q2, count := s.count + 1,
                    pushes := s.pushes ++ [(ek, payload)] }
  | _ => .ok s

/-- Run the candidate loop over the cursor rows; the boolean records
whether the run aborted (a question-mark operator propagated). -/
def runCands (env : Env) : CycleState → List AggEntry → CycleState × Bool
  | s, [] => (s, false)
  | s, e :: rest =>
    match stepCand env s e with
    | .error s2 => (s2, true)
    | .ok s2 => runCands env s2 rest

/-- The observable outcome of one poll-loop iteration. -/
structure CycleOut where
  queue : List Payload
  count : Nat
  pushes : List (String × Payload)
  slept : Bool
  aborted : Bool
deriving DecidableEq, Repr

/-- One iteration of the poll loop: when the aggregation query fails the
error is logged and the loop continues at the top (no candidates, no
pushes, and the end-of-loop sleep is skipped); otherwise the candidate
rows are the stall candidates and the loop sleeps only when no
question-mark operator propagated. -/
def runCycle (aggFails : Bool) (docs : List CtxDoc) (cutoff : Int) (env : Env)
    (queue0 : List Payload) : CycleOut :=
  match aggFails with
  | true =>
    { queue := queue0, count := 0, pushes := [], slept := false,
      aborted := false }
  | false =>
    match runCands env { queue := queue0, count := 0, pushes := [] }
        ((stallCandidates docs cutoff).map AggEntry.strId) with
    | (s, ab) =>
      { queue := s.queue, count := s.count, pushes := s.pushes,
        slept := !ab, aborted := ab }

/-! ### Counter resetters (watchdog_client.rs lines 56 to 72)

Two spawned tasks, each an infinite loop: delete one counter key in the
cache, bind the RedisResult to an underscore (discarding it, with no
log call), sleep a fixed duration.  A trace over a finite prefix of
iterations records, per iteration, the deletion attempt with its
outcome and the fixed sleep. -/

/-- One observable action of a counter-resetter task.  The logError
action models the emission of an error or warning log line, as the
other call sites of the file do on failure; the resetter loop bodies
contain no such call, so their traces never hold it. -/
inductive TaskAction where
  | delAttempt (key : String) (ok : Bool)
  | sleepSecs (secs : Nat)
  | logError
deriving DecidableEq, Repr

/-- The trace of a counter-resetter over a finite prefix of iterations,
one boolean deletion outcome per iteration: the loop body deletes the
key (binding the result to an underscore: the outcome is discarded
silently, no log action is emitted) and then sleeps its fixed cadence,
whatever the outcome was. -/
def resetterTrace (key : String) (secs : Nat) : List Bool → List TaskAction
  | [] => []
  | ok :: rest =>
    TaskAction.delAttempt key ok :: TaskAction.sleepSecs secs ::
      resetterTrace key secs rest

/-- The event-throughput resetter: cadence one second. -/
def eventThroughputResetter (key : String) (outcomes : List Bool) :
    List TaskAction :=
  resetterTrace key 1 outcomes

/-- The API-throughput resetter: cadence sixty seconds. -/
def apiThroughputResetter (key : String) (outcomes : List Bool) :
    List TaskAction :=
  resetterTrace key 60 outcomes

/-! ### Stall-detector lemmas -/

theorem sortByTsDesc_perm (docs : List CtxDoc) :
    List.Perm (sortByTsDesc docs) docs :=
  List.perm_insertionSort tsGE docs

theorem sortByTsDesc_pairwise (docs : List CtxDoc) :
    (sortByTsDesc docs).Pairwise tsGE :=
  List.sorted_insertionSort tsGE docs

theorem groupOf_perm (docs : List CtxDoc) (k : String) :
    List.Perm (groupOf (sortByTsDesc docs) k)
      (docs.filter (fun d => decide (d.eventKey = k))) :=
  (sortByTsDesc_perm docs).filter _

theorem groupOf_pairwise (docs : List CtxDoc) (k : String) :
    (groupOf (sortByTsDesc docs) k).Pairwise tsGE :=
  (sortByTsDesc_pairwise docs).sublist (List.filter_sublist _)

/-- A pairwise timestamp-descending list that is a permutation of a list
whose unique timestamp maximum is m must start with m. -/
theorem head_of_sorted_unique_max {g l : List CtxDoc} {m : CtxDoc}
    (hp : g.Pairwise tsGE) (hperm : List.Perm g l) (hm : m ∈ l)
    (hmax : ∀ d ∈ l, d ≠ m → d.timestamp < m.timestamp) :
    ∃ rest, g = m :: rest := by
  have hmg : m ∈ g := hperm.mem_iff.mpr hm
  cases g with
  | nil => cases hmg
  | cons first rest =>
    by_cases hfm : first = m
    · exact ⟨rest, by rw [hfm]⟩
    · exfalso
      have hfl : first ∈ l := hperm.mem_iff.mp (List.mem_cons_self _ _)
      have hlt : first.timestamp < m.timestamp := hmax first hfl hfm
      have hmr : m ∈ rest := by
        cases List.mem_cons.mp hmg with
        | inl h => exact absurd h.symm hfm
        | inr h => exact h
      have hle : m.timestamp ≤ first.timestamp :=
        (List.pairwise_cons.mp hp).1 m hmr
      exact absurd hle (not_le.mpr hlt)

/-- The core characterization of the stall predicate: when the key-k
group of the context log has a unique most-recent document m, the key is
a stall candidate iff no document of the group is more recent than the
cutoff, m's stage is not Finished, and m's status is Succeeded. -/
theorem mem_stallCandidates_iff (docs : List CtxDoc) (k : String)
    (m : CtxDoc) (cutoff : Int) (hm : m ∈ docs) (hk : m.eventKey = k)
    (hmax : ∀ d ∈ docs, d.eventKey = k → d ≠ m → d.timestamp < m.timestamp) :
    k ∈ stallCandidates docs cutoff ↔
      ((∀ d ∈ docs, d.eventKey = k → d.timestamp ≤ cutoff) ∧
        ¬ m.stage = StageTag.Finished ∧ m.status = Status.Succeeded) := by
  have hmf : m ∈ docs.filter (fun d => decide (d.eventKey = k)) :=
    List.mem_filter.mpr ⟨hm, by simpa using hk⟩
  have hmaxf : ∀ d ∈ docs.filter (fun d => decide (d.eventKey = k)),
      d ≠ m → d.timestamp < m.timestamp := by
    intro d hd hdm
    have hd2 := List.mem_filter.mp hd
    exact hmax d hd2.1 (by simpa using hd2.2) hdm
  obtain ⟨rest, hg⟩ := head_of_sorted_unique_max (groupOf_pairwise docs k)
    (groupOf_perm docs k) hmf hmaxf
  have hkmem : k ∈ ((sortByTsDesc docs).map (·.eventKey)).dedup := by
    rw [List.mem_dedup, List.mem_map]
    exact ⟨m, (sortByTsDesc_perm docs).mem_iff.mpr hm, hk⟩
  have hcount : (groupOf (sortByTsDesc docs) k).countP
      (fun d => decide (cutoff < d.timestamp)) =
      (docs.filter (fun d => decide (d.eventKey = k))).countP
      (fun d => decide (cutoff < d.timestamp)) :=
    (groupOf_perm docs k).countP_eq _
  constructor
  · intro hmem
    have h2 := List.mem_filter.mp hmem
    have hgrp : isStallGroup cutoff (groupOf (sortByTsDesc docs) k) = true :=
      h2.2
    rw [hg] at hgrp
    unfold isStallGroup at hgrp
    simp only [Bool.and_eq_true, beq_iff_eq, decide_eq_true_eq] at hgrp
    obtain ⟨⟨hc, hst⟩, hsu⟩ := hgrp
    refine ⟨?_, hst, hsu⟩
    rw [← hg] at hc
    rw [hcount] at hc
    have hall := List.countP_eq_zero.mp hc
    intro d hd hdk
    have hdmem : d ∈ docs.filter (fun d => decide (d.eventKey = k)) :=
      List.mem_filter.mpr ⟨hd, by simpa using hdk⟩
    have := hall d hdmem
    simpa using this
  · rintro ⟨hts, hst, hsu⟩
    apply List.mem_filter.mpr
    refine ⟨hkmem, ?_⟩
    rw [hg]
    unfold isStallGroup
    simp only [Bool.and_eq_true, beq_iff_eq, decide_eq_true_eq]
    refine ⟨⟨?_, hst⟩, hsu⟩
    rw [← hg, hcount]
    apply List.countP_eq_zero.mpr
    intro d hd
    have hd2 := List.mem_filter.mp hd
    have := hts d hd2.1 (by simpa using hd2.2)
    simpa using not_lt.mpr this

/-- C1: for every set of context documents sharing one event key and a
liveness cutoff, the stall detector flags that key as stalled iff no
document of the group has a timestamp greater than the cutoff, the
most-recent (greatest-timestamp) document's stage is not Finished, and
that document's status is Succeeded; the iff makes flipping any one of
the three conditions flip the verdict. -/
theorem C1_stall_predicate (docs : List CtxDoc) (k : String) (m : CtxDoc)
    (cutoff : Int) (hall : ∀ d ∈ docs, d.eventKey = k) (hm : m ∈ docs)
    (hmax : ∀ d ∈ docs, d ≠ m → d.timestamp < m.timestamp) :
    k ∈ stallCandidates docs cutoff ↔
      ((∀ d ∈ docs, d.timestamp ≤ cutoff) ∧
        ¬ m.stage = StageTag.Finished ∧ m.status = Status.Succeeded) := by
  have h := mem_stallCandidates_iff docs k m cutoff hm (hall m hm)
    (fun d hd _ hdm => hmax d hd hdm)
  rw [h]
  constructor
  · rintro ⟨h1, h2, h3⟩
    exact ⟨fun d hd => h1 d hd (hall d hd), h2, h3⟩
  · rintro ⟨h1, h2, h3⟩
    exact ⟨fun d hd _ => h1 d hd, h2, h3⟩

theorem C1_stall_predicate_witness :
    "k" ∈ stallCandidates
      [{ eventKey := "k", stage := StageTag.ProcessingPipelines,
         status := Status.Succeeded, timestamp := 0 }] 5 :=
  (C1_stall_predicate _ "k"
      { eventKey := "k", stage := StageTag.ProcessingPipelines,
        status := Status.Succeeded, timestamp := 0 } 5
      (by decide) (by decide) (by decide)).mpr (by decide)

/-! ### Provenance of pushes: every push in a cycle belongs to one of the
cursor rows -/

/-- The state carried by a candidate-step result, whether the step
continued or aborted. -/
def exceptState : Except CycleState CycleState → CycleState
  | .ok s => s
  | .error s => s

theorem stepCand_pushes_sub (env : Env) (s : CycleState) (e : AggEntry) :
    ∀ pr ∈ (exceptState (stepCand env s e)).pushes,
      pr ∈ s.pushes ∨ AggEntry.strId pr.1 = e := by
  intro pr hpr
  rcases e with _ | _ | ek
  · exact Or.inl hpr
  · exact Or.inl hpr
  · simp only [stepCand] at hpr
    cases h1 : env.rootFetch ek <;> simp only [h1] at hpr
    case err => exact Or.inl hpr
    case notFound => exact Or.inl hpr
    case found root =>
      cases h2 : reconstruct env root <;> simp only [h2] at hpr
      case error => exact Or.inl hpr
      case ok root2 =>
        cases h3 : env.eventFetch ek <;> simp only [h3] at hpr
        case err => exact Or.inl hpr
        case notFound => exact Or.inl hpr
        case found ev =>
          cases h4 : env.serialize { event := ev, context := root2 } <;>
            simp only [h4] at hpr
          case none => exact Or.inl hpr
          case some payload =>
            cases h5 : queueStep env.lposErr env.lpushErr s.queue payload with
            | mk q2 flag =>
              simp only [h5] at hpr
              cases flag
              case fatal => exact Or.inl hpr
              case dedup => exact Or.inl hpr
              case pushFail => exact Or.inl hpr
              case pushed =>
                simp only [exceptState] at hpr
                rcases List.mem_append.mp hpr with h | h
                · exact Or.inl h
                · right
                  have h6 := List.mem_singleton.mp h
                  rw [h6]

theorem runCands_pushes_sub (env : Env) :
    ∀ (entries : List AggEntry) (s : CycleState),
      ∀ pr ∈ (runCands env s entries).1.pushes,
        pr ∈ s.pushes ∨ AggEntry.strId pr.1 ∈ entries := by
  intro entries
  induction entries with
  | nil => intro s pr hpr; exact Or.inl hpr
  | cons e rest ih =>
    intro s pr hpr
    unfold runCands at hpr
    cases hstep : stepCand env s e with
    | error s2 =>
      rw [hstep] at hpr
      have hsub := stepCand_pushes_sub env s e pr
      rw [hstep] at hsub
      rcases hsub hpr with h | h
      · exact Or.inl h
      · exact Or.inr (h ▸ List.mem_cons_self _ _)
    | ok s2 =>
      rw [hstep] at hpr
      rcases ih s2 pr hpr with h | h
      · have hsub := stepCand_pushes_sub env s e pr
        rw [hstep] at hsub
        rcases hsub h with h2 | h2
        · exact Or.inl h2
        · exact Or.inr (h2 ▸ List.mem_cons_self _ _)
      · exact Or.inr (List.mem_cons_of_mem _ h)

/-- C5: an event key whose latest context document has a status other
than Succeeded (Dropped or Failed) is never selected as a stall
candidate and no payload is ever pushed for it during the cycle,
regardless of how stale its timestamps are. -/
theorem C5_dropped_never_republished (docs : List CtxDoc) (k : String)
    (m : CtxDoc) (cutoff : Int) (aggFails : Bool) (env : Env)
    (queue0 : List Payload) (hm : m ∈ docs) (hk : m.eventKey = k)
    (hmax : ∀ d ∈ docs, d.eventKey = k → d ≠ m → d.timestamp < m.timestamp)
    (hst : ¬ m.status = Status.Succeeded) :
    k ∉ stallCandidates docs cutoff ∧
      ∀ pr ∈ (runCycle aggFails docs cutoff env queue0).pushes, pr.1 ≠ k := by
  have hnot : k ∉ stallCandidates docs cutoff := by
    rw [mem_stallCandidates_iff docs k m cutoff hm hk hmax]
    rintro ⟨_, _, h3⟩
    exact hst h3
  refine ⟨hnot, ?_⟩
  intro pr hpr
  cases aggFails with
  | true => simp [runCycle] at hpr
  | false =>
    unfold runCycle at hpr
    rcases runCands_pushes_sub env _ _ pr hpr with h | h
    · simp at h
    · intro hEq
      rw [hEq] at h
      rcases List.mem_map.mp h with ⟨x, hx, hxe⟩
      cases hxe
      exact hnot hx

theorem C5_dropped_never_republished_witness :
    "k" ∉ stallCandidates
        [{ eventKey := "k", stage := StageTag.ProcessingPipelines,
           status := Status.Dropped, timestamp := -100 }] 0 ∧
      ∀ pr ∈ (runCycle false
          [{ eventKey := "k", stage := StageTag.ProcessingPipelines,
             status := Status.Dropped, timestamp := -100 }] 0
          { rootFetch := fun _ => FetchRes.notFound,
            pipelineFetch := fun _ _ => FetchRes.notFound,
            extractorFetch := fun _ _ _ => FetchRes.notFound,
            eventFetch := fun _ => FetchRes.notFound,
            serialize := fun _ => none,
            lposErr := fun _ => false,
            lpushErr := fun _ => false } []).pushes, pr.1 ≠ "k" :=
  C5_dropped_never_republished _ "k"
    { eventKey := "k", stage := StageTag.ProcessingPipelines,
      status := Status.Dropped, timestamp := -100 } 0 false _ []
    (by decide) (by decide) (by decide) (by decide)

/-! ### Concrete environments used by counterexamples and witnesses -/

/-- An environment in which every fetch reports no document, every
serialization fails, and the queue operations never error. -/
def envNone : Env :=
  { rootFetch := fun _ => FetchRes.notFound,
    pipelineFetch := fun _ _ => FetchRes.notFound,
    extractorFetch := fun _ _ _ => FetchRes.notFound,
    eventFetch := fun _ => FetchRes.notFound,
    serialize := fun _ => none,
    lposErr := fun _ => false,
    lpushErr := fun _ => false }

/-- A root context in the Created stage (no embedded children). -/
def rootCreated : RootContext :=
  { event_key := "k", stage := RootStage.Created,
    status := Status.Succeeded, timestamp := 0 }

/-- An environment in which the root fetch finds a Created root but the
event-store lookup fails with a transport error. -/
def envEventErr : Env :=
  { envNone with
    rootFetch := fun _ => FetchRes.found rootCreated,
    eventFetch := fun _ => FetchRes.err }

/-- C6 counterexample: when the aggregation query fails, the cycle is
recovered with zero candidates and zero pushes and without aborting, but
the end-of-loop sleep IS skipped (slept is false at this concrete
input), refuting the clause that the scheduled sleep is not skipped. -/
theorem C6_sleep_skipped_counterexample :
    (runCycle true [] 0 envNone []).slept ≠ true ∧
      (runCycle true [] 0 envNone []).aborted = false ∧
      (runCycle true [] 0 envNone []).count = 0 ∧
      (runCycle true [] 0 envNone []).pushes = [] := by
  refine ⟨?_, rfl, rfl, rfl⟩
  intro h
  simp [runCycle] at h

/-- C6 amended: if the stall-detection aggregation query fails, the
failure is logged without aborting the run, the cycle yields zero
candidates and zero pushes and leaves the queue untouched, and the
scheduled poll sleep IS skipped (the loop restarts immediately, a tight
retry). -/
theorem C6_agg_failure_recovered (docs : List CtxDoc) (cutoff : Int)
    (env : Env) (queue0 : List Payload) :
    runCycle true docs cutoff env queue0 =
      { queue := queue0, count := 0, pushes := [], slept := false,
        aborted := false } := rfl

/-- C3 counterexample: an event-store fetch error while processing one
stalled candidate propagates through the question-mark operator and
aborts the whole batch (the run returns an error), refuting the clause
that no per-candidate fetch failure ever aborts the batch. -/
theorem C3_event_fetch_error_aborts_counterexample :
    runCands envEventErr { queue := [], count := 0, pushes := [] }
        [AggEntry.strId "k"] =
      ({ queue := [], count := 0, pushes := [] }, true) := rfl

/-- C3 amended: a root fetch error, a missing root document, a failed
reconstruction (missing or erroring pipeline or extractor fetch), a
missing event document, a serialization failure, and a queue push
failure are each logged and skip only that candidate, the batch
continuing with the remaining candidates; but an Event Store fetch error
or a queue-membership (lpos) check error propagates and aborts the whole
run. -/
theorem C3_per_candidate_failure_handling (env : Env) (s : CycleState)
    (ek : String) (e : AggEntry) (rest : List AggEntry) :
    (env.rootFetch ek = FetchRes.err →
      stepCand env s (AggEntry.strId ek) = Except.ok s) ∧
    (env.rootFetch ek = FetchRes.notFound →
      stepCand env s (AggEntry.strId ek) = Except.ok s) ∧
    (∀ root, env.rootFetch ek = FetchRes.found root →
      reconstruct env root = Except.error () →
      stepCand env s (AggEntry.strId ek) = Except.ok s) ∧
    (∀ root root2, env.rootFetch ek = FetchRes.found root →
      reconstruct env root = Except.ok root2 →
      env.eventFetch ek = FetchRes.notFound →
      stepCand env s (AggEntry.strId ek) = Except.ok s) ∧
    (∀ root root2 ev, env.rootFetch ek = FetchRes.found root →
      reconstruct env root = Except.ok root2 →
      env.eventFetch ek = FetchRes.found ev →
      env.serialize { event := ev, context := root2 } = none →
      stepCand env s (AggEntry.strId ek) = Except.ok s) ∧
    (∀ root root2 ev p, env.rootFetch ek = FetchRes.found root →
      reconstruct env root = Except.ok root2 →
      env.eventFetch ek = FetchRes.found ev →
      env.serialize { event := ev, context := root2 } = some p →
      env.lposErr p = false → p ∉ s.queue → env.lpushErr p = true →
      stepCand env s (AggEntry.strId ek) = Except.ok s) ∧
    (∀ root root2, env.rootFetch ek = FetchRes.found root →
      reconstruct env root = Except.ok root2 →
      env.eventFetch ek = FetchRes.err →
      stepCand env s (AggEntry.strId ek) = Except.error s) ∧
    (∀ root root2 ev p, env.rootFetch ek = FetchRes.found root →
      reconstruct env root = Except.ok root2 →
      env.eventFetch ek = FetchRes.found ev →
      env.serialize { event := ev, context := root2 } = some p →
      env.lposErr p = true →
      stepCand env s (AggEntry.strId ek) = Except.error s) ∧
    (∀ s2, stepCand env s e = Except.ok s2 →
      runCands env s (e :: rest) = runCands env s2 rest) ∧
    (∀ s2, stepCand env s e = Except.error s2 →
      runCands env s (e :: rest) = (s2, true)) := by
  refine ⟨?_, ?_, ?_, ?_, ?_, ?_, ?_, ?_, ?_, ?_⟩
  · intro h1
    simp [stepCand, h1]
  · intro h1
    simp [stepCand, h1]
  · intro root h1 h2
    simp [stepCand, h1, h2]
  · intro root root2 h1 h2 h3
    simp [stepCand, h1, h2, h3]
  · intro root root2 ev h1 h2 h3 h4
    simp [stepCand, h1, h2, h3, h4]
  · intro root root2 ev p h1 h2 h3 h4 h5 h6 h7
    simp [stepCand, queueStep, h1, h2, h3, h4, h5, h6, h7]
  · intro root root2 h1 h2 h3
    simp [stepCand, h1, h2, h3]
  · intro root root2 ev p h1 h2 h3 h4 h5
    simp [stepCand, queueStep, h1, h2, h3, h4, h5]
  · intro s2 h1
    simp [runCands, h1]
  · intro s2 h1
    simp [runCands, h1]

theorem C3_per_candidate_failure_handling_witness :
    stepCand envNone { queue := [], count := 0, pushes := [] }
        (AggEntry.strId "k") =
      Except.ok { queue := [], count := 0, pushes := [] } ∧
    stepCand envEventErr { queue := [], count := 0, pushes := [] }
        (AggEntry.strId "k") =
      Except.error { queue := [], count := 0, pushes := [] } ∧
    runCands envEventErr { queue := [], count := 0, pushes := [] }
        [AggEntry.strId "k", AggEntry.missingId] =
      ({ queue := [], count := 0, pushes := [] }, true) := by
  have h := C3_per_candidate_failure_handling envNone
    { queue := [], count := 0, pushes := [] } "k" AggEntry.missingId []
  have h2 := C3_per_candidate_failure_handling envEventErr
    { queue := [], count := 0, pushes := [] } "k" (AggEntry.strId "k")
    [AggEntry.missingId]
  refine ⟨h.2.1 rfl, ?_, ?_⟩
  · exact h2.2.2.2.2.2.2.1 rootCreated rootCreated rfl rfl rfl
  · exact h2.2.2.2.2.2.2.2.2.2 { queue := [], count := 0, pushes := [] }
      (h2.2.2.2.2.2.2.1 rootCreated rootCreated rfl rfl rfl)

/-- C9: a cursor row whose group id is absent or not a BSON string is
logged and skipped, only that row, and the loop continues with the
remaining candidate rows of the same cycle. -/
theorem C9_malformed_id_skipped (env : Env) (s : CycleState)
    (rest : List AggEntry) (e : AggEntry)
    (h : e = AggEntry.missingId ∨ e = AggEntry.nonStringId) :
    stepCand env s e = Except.ok s ∧
      runCands env s (e :: rest) = runCands env s rest := by
  rcases h with h | h <;> subst h <;> exact ⟨rfl, rfl⟩

theorem C9_malformed_id_skipped_witness :
    stepCand envNone { queue := [], count := 0, pushes := [] }
        AggEntry.missingId =
      Except.ok { queue := [], count := 0, pushes := [] } ∧
    runCands envNone { queue := [], count := 0, pushes := [] }
        [AggEntry.missingId] =
      runCands envNone { queue := [], count := 0, pushes := [] } [] :=
  C9_malformed_id_skipped envNone { queue := [], count := 0, pushes := [] }
    [] AggEntry.missingId (Or.inl rfl)

/-- C4: with the queue operations not erroring, a payload already
present byte for byte in the queue is skipped without a push (and, in
the candidate step, without touching the state or the success tally);
an absent payload is pushed exactly once to the head; pushing the same
payload twice while the first copy is still queued leaves exactly one
entry; and a queue holding at most one copy still holds at most one
copy afterwards. -/
theorem C4_idempotent_republish (queue : List Payload) (p : Payload) :
    (p ∈ queue →
      queueStep (fun _ => false) (fun _ => false) queue p =
        (queue, PushFlag.dedup)) ∧
    (p ∉ queue →
      queueStep (fun _ => false) (fun _ => false) queue p =
        (p :: queue, PushFlag.pushed)) ∧
    (p ∉ queue →
      (queueStep (fun _ => false) (fun _ => false)
          (queueStep (fun _ => false) (fun _ => false) queue p).1 p).1.count
            p = 1 ∧
      (queueStep (fun _ => false) (fun _ => false)
          (queueStep (fun _ => false) (fun _ => false) queue p).1 p).2 =
        PushFlag.dedup) ∧
    (queue.count p ≤ 1 →
      (queueStep (fun _ => false) (fun _ => false) queue p).1.count p ≤ 1) ∧
    (∀ (env : Env) (s : CycleState) (ek : String) root root2 ev,
      env.rootFetch ek = FetchRes.found root →
      reconstruct env root = Except.ok root2 →
      env.eventFetch ek = FetchRes.found ev →
      env.serialize { event := ev, context := root2 } = some p →
      env.lposErr p = false → p ∈ s.queue →
      stepCand env s (AggEntry.strId ek) = Except.ok s) := by
  refine ⟨?_, ?_, ?_, ?_, ?_⟩
  · intro h
    simp [queueStep, h]
  · intro h
    simp [queueStep, h]
  · intro h
    have e1 : queueStep (fun _ => false) (fun _ => false) queue p =
        (p :: queue, PushFlag.pushed) := by
      simp [queueStep, h]
    rw [e1]
    have e2 : queueStep (fun _ => false) (fun _ => false) (p :: queue) p =
        (p :: queue, PushFlag.dedup) := by
      simp [queueStep]
    rw [e2]
    exact ⟨by simp [List.count_cons_self, List.count_eq_zero.mpr h], rfl⟩
  · intro h
    by_cases hm : p ∈ queue
    · simpa [queueStep, hm] using h
    · simp [queueStep, hm, List.count_cons_self, List.count_eq_zero.mpr hm]
  · intro env s ek root root2 ev h1 h2 h3 h4 h5 h6
    simp [stepCand, queueStep, h1, h2, h3, h4, h5, h6]

theorem C4_idempotent_republish_witness :
    queueStep (fun _ => false) (fun _ => false) [[0]] [0] =
      ([[0]], PushFlag.dedup) ∧
    queueStep (fun _ => false) (fun _ => false) [] [0] =
      ([[0]], PushFlag.pushed) ∧
    (queueStep (fun _ => false) (fun _ => false)
        (queueStep (fun _ => false) (fun _ => false) [] [0]).1 [0]).1.count
          [0] = 1 :=
  ⟨(C4_idempotent_republish [[0]] [0]).1 (by decide),
   (C4_idempotent_republish [] [0]).2.1 (by decide),
   ((C4_idempotent_republish [] [0]).2.2.1 (by decide)).1⟩

/-- C8: reconstruction returns the fetched root with every field other
than the child maps nested inside its stage unchanged: the event key,
status, timestamp and the stage tag are those of the fetched root; in
particular a root whose stage is Created or Finished is returned for the
envelope exactly as fetched, for every environment, so no pipeline or
extractor fetch can influence it. -/
theorem C8_reconstruct_frame (env : Env) (root : RootContext) :
    ((root.stage = RootStage.Created ∨ root.stage = RootStage.Finished) →
      reconstruct env root = Except.ok root) ∧
    (∀ root2, reconstruct env root = Except.ok root2 →
      root2.event_key = root.event_key ∧ root2.status = root.status ∧
      root2.timestamp = root.timestamp ∧
      (∀ ps, root.stage = RootStage.ProcessingPipelines ps →
        ∃ ps2, root2.stage = RootStage.ProcessingPipelines ps2 ∧
          refreshPipelines env ps = Except.ok ps2) ∧
      (root.stage = RootStage.Created → root2.stage = RootStage.Created) ∧
      (root.stage = RootStage.Finished →
        root2.stage = RootStage.Finished)) := by
  constructor
  · intro h
    rcases h with h | h <;> simp [reconstruct, h]
  · intro root2 h
    cases hst : root.stage with
    | Created =>
      simp only [reconstruct, hst] at h
      cases h
      refine ⟨rfl, rfl, rfl, ?_, fun _ => hst, ?_⟩
      · intro ps hps
        cases hps
      · intro hf
        cases hf
    | Finished =>
      simp only [reconstruct, hst] at h
      cases h
      refine ⟨rfl, rfl, rfl, ?_, ?_, fun _ => hst⟩
      · intro ps hps
        cases hps
      · intro hc
        cases hc
    | ProcessingPipelines ps0 =>
      simp only [reconstruct, hst] at h
      cases hr : refreshPipelines env ps0 with
      | error e =>
        rw [hr] at h
        cases h
      | ok ps2 =>
        rw [hr] at h
        cases h
        refine ⟨rfl, rfl, rfl, ?_, ?_, ?_⟩
        · intro ps hps
          cases hps
          exact ⟨ps2, rfl, hr⟩
        · intro hc
          cases hc
        · intro hf
          cases hf

theorem C8_reconstruct_frame_witness :
    reconstruct envNone rootCreated = Except.ok rootCreated :=
  (C8_reconstruct_frame envNone rootCreated).1 (Or.inl rfl)

/-! ### Association-list map lemmas -/

theorem mapLookup_insert_self {α : Type} (k : String) (v : α) (m : PMap α) :
    mapLookup k (mapInsert k v m) = some v := by
  induction m with
  | nil => simp [mapInsert, mapLookup]
  | cons hd tl ih =>
    rcases hd with ⟨k0, v0⟩
    by_cases h : k0 = k
    · simp [mapInsert, h, mapLookup]
    · simp [mapInsert, h, mapLookup, ih]

theorem mapLookup_insert_ne {α : Type} (k k2 : String) (v : α) (m : PMap α)
    (h : k ≠ k2) : mapLookup k2 (mapInsert k v m) = mapLookup k2 m := by
  induction m with
  | nil => simp [mapInsert, mapLookup, h]
  | cons hd tl ih =>
    rcases hd with ⟨k0, v0⟩
    by_cases h0 : k0 = k
    · subst h0
      simp [mapInsert, mapLookup, h]
    · by_cases h2 : k0 = k2
      · simp [mapInsert, h0, mapLookup, h2, Ne.symm h]
      · simp [mapInsert, h0, mapLookup, h2, ih]

theorem keysOf_insert_mem {α : Type} (k : String) (v : α) (m : PMap α)
    (h : k ∈ keysOf m) : keysOf (mapInsert k v m) = keysOf m := by
  induction m with
  | nil => cases h
  | cons hd tl ih =>
    rcases hd with ⟨k0, v0⟩
    by_cases h0 : k0 = k
    · simp [mapInsert, h0, keysOf]
    · simp only [keysOf, List.map_cons] at h
      have h2 : k ∈ keysOf tl := by
        rcases List.mem_cons.mp h with h3 | h3
        · exact absurd h3.symm h0
        · exact h3
      have h4 : (mapInsert k v tl).map Prod.fst = tl.map Prod.fst := ih h2
      simp only [mapInsert, if_neg h0, keysOf, List.map_cons]
      rw [h4]

theorem mapLookup_eq_some_mem {α : Type} {k : String} {v : α} {m : PMap α}
    (h : mapLookup k m = some v) : (k, v) ∈ m := by
  induction m with
  | nil => cases h
  | cons hd tl ih =>
    rcases hd with ⟨k0, v0⟩
    by_cases h0 : k0 = k
    · subst h0
      simp [mapLookup] at h
      subst h
      exact List.mem_cons_self _ _
    · simp [mapLookup, h0] at h
      exact List.mem_cons_of_mem _ (ih h)

/-! ### Store contracts and map-key invariants

The context log's find-one returns only documents matching the filter
the code builds, so a found child carries exactly the scope keys it was
asked for; and in the documented data model the key of every map entry
is the child's own scope key. -/

/-- The pipeline fetch honours its filter: a found document has the
event key and pipeline key it was asked for. -/
def PipelineFetchMatches (env : Env) : Prop :=
  ∀ ek pk c, env.pipelineFetch ek pk = FetchRes.found c →
    c.event_key = ek ∧ c.pipeline_key = pk

/-- The extractor fetch honours its filter. -/
def ExtractorFetchMatches (env : Env) : Prop :=
  ∀ ek pk xk c, env.extractorFetch ek pk xk = FetchRes.found c →
    c.event_key = ek ∧ c.pipeline_key = pk ∧ c.extractor_key = xk

/-- Every map entry's key equals its value's own key field. -/
def KeyedBy {α : Type} (keyOf : α → String) (m : PMap α) : Prop :=
  ∀ p ∈ m, keyOf p.2 = p.1

/-- One embedded extractor entry makes reconstruction fail: its re-fetch
errors or finds no document. -/
def extractorEntryFails (env : Env) (e : ExtractorContext) : Prop :=
  match env.extractorFetch e.event_key e.pipeline_key e.extractor_key with
  | FetchRes.found _ => False
  | _ => True

/-- One embedded pipeline entry makes reconstruction fail: its re-fetch
errors or finds no document, or the fetched pipeline's own extractor
refresh fails. -/
def pipelineEntryFails (env : Env) (p : PipelineContext) : Prop :=
  match env.pipelineFetch p.event_key p.pipeline_key with
  | FetchRes.found c => refreshPipeline env c = Except.error ()
  | _ => True

/-! ### Extractor-level refresh lemmas -/

theorem refreshExtractorsGo_lookup_untouched (env : Env)
    (hx : ExtractorFetchMatches env) :
    ∀ (vals : List ExtractorContext) (m m2 : PMap ExtractorContext),
      refreshExtractorsGo env m vals = Except.ok m2 →
      ∀ k, (∀ e ∈ vals, e.extractor_key ≠ k) →
        mapLookup k m2 = mapLookup k m := by
  intro vals
  induction vals with
  | nil =>
    intro m m2 h k _
    cases h
    rfl
  | cons e rest ih =>
    intro m m2 h k hk
    simp only [refreshExtractorsGo] at h
    cases hf : env.extractorFetch e.event_key e.pipeline_key e.extractor_key
      <;> rw [hf] at h
    case err => cases h
    case notFound => cases h
    case found c =>
      have hkey : c.extractor_key = e.extractor_key :=
        (hx _ _ _ _ hf).2.2
      have h2 := ih _ _ h k (fun e2 he2 => hk e2 (List.mem_cons_of_mem _ he2))
      rw [h2, mapLookup_insert_ne]
      rw [hkey]
      exact hk e (List.mem_cons_self _ _)

theorem refreshExtractorsGo_keys (env : Env)
    (hx : ExtractorFetchMatches env) :
    ∀ (vals : List ExtractorContext) (m m2 : PMap ExtractorContext),
      refreshExtractorsGo env m vals = Except.ok m2 →
      (∀ e ∈ vals, e.extractor_key ∈ keysOf m) →
      keysOf m2 = keysOf m := by
  intro vals
  induction vals with
  | nil =>
    intro m m2 h _
    cases h
    rfl
  | cons e rest ih =>
    intro m m2 h hk
    simp only [refreshExtractorsGo] at h
    cases hf : env.extractorFetch e.event_key e.pipeline_key e.extractor_key
      <;> rw [hf] at h
    case err => cases h
    case notFound => cases h
    case found c =>
      have hkey : c.extractor_key = e.extractor_key :=
        (hx _ _ _ _ hf).2.2
      have hmem : c.extractor_key ∈ keysOf m := by
        rw [hkey]
        exact hk e (List.mem_cons_self _ _)
      have hkeep := keysOf_insert_mem c.extractor_key c m hmem
      have h2 := ih _ _ h (fun e2 he2 => by
        rw [hkeep]
        exact hk e2 (List.mem_cons_of_mem _ he2))
      rw [h2, hkeep]

theorem refreshExtractorsGo_refreshes (env : Env)
    (hx : ExtractorFetchMatches env) :
    ∀ (vals : List ExtractorContext) (m m2 : PMap ExtractorContext),
      refreshExtractorsGo env m vals = Except.ok m2 →
      (vals.map (fun e => e.extractor_key)).Nodup →
      ∀ e ∈ vals, ∃ c,
        env.extractorFetch e.event_key e.pipeline_key e.extractor_key =
          FetchRes.found c ∧
        mapLookup e.extractor_key m2 = some c := by
  intro vals
  induction vals with
  | nil =>
    intro m m2 _ _ e he
    cases he
  | cons e0 rest ih =>
    intro m m2 h hnd e he
    simp only [refreshExtractorsGo] at h
    cases hf : env.extractorFetch e0.event_key e0.pipeline_key
        e0.extractor_key <;> rw [hf] at h
    case err => cases h
    case notFound => cases h
    case found c =>
      have hkey : c.extractor_key = e0.extractor_key :=
        (hx _ _ _ _ hf).2.2
      rw [List.map_cons, List.nodup_cons] at hnd
      rcases hnd with ⟨hni, hnd2⟩
      rcases List.mem_cons.mp he with he0 | he0
      · subst he0
        refine ⟨c, hf, ?_⟩
        have huntouched := refreshExtractorsGo_lookup_untouched env hx rest
          _ _ h e.extractor_key (fun e2 he2 hk2 => hni (hk2 ▸ List.mem_map_of_mem _ he2))
        rw [huntouched, hkey, mapLookup_insert_self]
      · exact ih _ _ h hnd2 e he0

theorem refreshExtractorsGo_fails (env : Env) :
    ∀ (vals : List ExtractorContext) (m : PMap ExtractorContext),
      (∃ e ∈ vals, extractorEntryFails env e) →
      refreshExtractorsGo env m vals = Except.error () := by
  intro vals
  induction vals with
  | nil =>
    intro m h
    rcases h with ⟨e, he, _⟩
    cases he
  | cons e0 rest ih =>
    intro m h
    simp only [refreshExtractorsGo]
    cases hf : env.extractorFetch e0.event_key e0.pipeline_key
        e0.extractor_key
    case err => rfl
    case notFound => rfl
    case found c =>
      rcases h with ⟨e, he, hfail⟩
      rcases List.mem_cons.mp he with he0 | he0
      · subst he0
        unfold extractorEntryFails at hfail
        rw [hf] at hfail
        cases hfail
      · exact ih _ ⟨e, he0, hfail⟩

/-! ### Pipeline-level refresh lemmas -/

theorem refreshPipeline_frame (env : Env) (c c2 : PipelineContext)
    (h : refreshPipeline env c = Except.ok c2) :
    c2.pipeline_key = c.pipeline_key ∧ c2.event_key = c.event_key ∧
      c2.status = c.status ∧ c2.timestamp = c.timestamp := by
  cases hst : c.stage with
  | Created =>
    simp only [refreshPipeline, hst] at h
    cases h
    exact ⟨rfl, rfl, rfl, rfl⟩
  | Finished =>
    simp only [refreshPipeline, hst] at h
    cases h
    exact ⟨rfl, rfl, rfl, rfl⟩
  | ExecutingExtractors exts =>
    simp only [refreshPipeline, hst] at h
    cases hr : refreshExtractors env exts <;> rw [hr] at h
    case error => cases h
    case ok exts2 =>
      cases h
      exact ⟨rfl, rfl, rfl, rfl⟩

theorem refreshPipelinesGo_lookup_untouched (env : Env)
    (hp : PipelineFetchMatches env) :
    ∀ (vals : List PipelineContext) (m m2 : PMap PipelineContext),
      refreshPipelinesGo env m vals = Except.ok m2 →
      ∀ k, (∀ p ∈ vals, p.pipeline_key ≠ k) →
        mapLookup k m2 = mapLookup k m := by
  intro vals
  induction vals with
  | nil =>
    intro m m2 h k _
    cases h
    rfl
  | cons p rest ih =>
    intro m m2 h k hk
    cases hf : env.pipelineFetch p.event_key p.pipeline_key
    case err =>
      simp only [refreshPipelinesGo, hf] at h
      cases h
    case notFound =>
      simp only [refreshPipelinesGo, hf] at h
      cases h
    case found c =>
      simp only [refreshPipelinesGo, hf] at h
      cases hr : refreshPipeline env c
      case error =>
        simp only [hr] at h
        cases h
      case ok c2 =>
        simp only [hr] at h
        have hkey : c2.pipeline_key = p.pipeline_key := by
          rw [(refreshPipeline_frame env c c2 hr).1, (hp _ _ _ hf).2]
        have h2 := ih _ _ h k (fun p2 hp2 => hk p2 (List.mem_cons_of_mem _ hp2))
        rw [h2, mapLookup_insert_ne]
        rw [hkey]
        exact hk p (List.mem_cons_self _ _)

theorem refreshPipelinesGo_keys (env : Env)
    (hp : PipelineFetchMatches env) :
    ∀ (vals : List PipelineContext) (m m2 : PMap PipelineContext),
      refreshPipelinesGo env m vals = Except.ok m2 →
      (∀ p ∈ vals, p.pipeline_key ∈ keysOf m) →
      keysOf m2 = keysOf m := by
  intro vals
  induction vals with
  | nil =>
    intro m m2 h _
    cases h
    rfl
  | cons p rest ih =>
    intro m m2 h hk
    cases hf : env.pipelineFetch p.event_key p.pipeline_key
    case err =>
      simp only [refreshPipelinesGo, hf] at h
      cases h
    case notFound =>
      simp only [refreshPipelinesGo, hf] at h
      cases h
    case found c =>
      simp only [refreshPipelinesGo, hf] at h
      cases hr : refreshPipeline env c
      case error =>
        simp only [hr] at h
        cases h
      case ok c2 =>
        simp only [hr] at h
        have hkey : c2.pipeline_key = p.pipeline_key := by
          rw [(refreshPipeline_frame env c c2 hr).1, (hp _ _ _ hf).2]
        have hmem : c2.pipeline_key ∈ keysOf m := by
          rw [hkey]
          exact hk p (List.mem_cons_self _ _)
        have hkeep := keysOf_insert_mem c2.pipeline_key c2 m hmem
        have h2 := ih _ _ h (fun p2 hp2 => by
          rw [hkeep]
          exact hk p2 (List.mem_cons_of_mem _ hp2))
        rw [h2, hkeep]

theorem refreshPipelinesGo_refreshes (env : Env)
    (hp : PipelineFetchMatches env) :
    ∀ (vals : List PipelineContext) (m m2 : PMap PipelineContext),
      refreshPipelinesGo env m vals = Except.ok m2 →
      (vals.map (fun p => p.pipeline_key)).Nodup →
      ∀ p ∈ vals, ∃ c c2,
        env.pipelineFetch p.event_key p.pipeline_key = FetchRes.found c ∧
        refreshPipeline env c = Except.ok c2 ∧
        mapLookup p.pipeline_key m2 = some c2 := by
  intro vals
  induction vals with
  | nil =>
    intro m m2 _ _ p hpmem
    cases hpmem
  | cons p0 rest ih =>
    intro m m2 h hnd p hpmem
    cases hf : env.pipelineFetch p0.event_key p0.pipeline_key
    case err =>
      simp only [refreshPipelinesGo, hf] at h
      cases h
    case notFound =>
      simp only [refreshPipelinesGo, hf] at h
      cases h
    case found c =>
      simp only [refreshPipelinesGo, hf] at h
      cases hr : refreshPipeline env c
      case error =>
        simp only [hr] at h
        cases h
      case ok c2 =>
        simp only [hr] at h
        have hkey : c2.pipeline_key = p0.pipeline_key := by
          rw [(refreshPipeline_frame env c c2 hr).1, (hp _ _ _ hf).2]
        rw [List.map_cons, List.nodup_cons] at hnd
        rcases hnd with ⟨hni, hnd2⟩
        rcases List.mem_cons.mp hpmem with he0 | he0
        · subst he0
          refine ⟨c, c2, hf, hr, ?_⟩
          have huntouched := refreshPipelinesGo_lookup_untouched env hp rest
            _ _ h p.pipeline_key
            (fun p2 hp2 hk2 => hni (hk2 ▸ List.mem_map_of_mem _ hp2))
          rw [huntouched, hkey, mapLookup_insert_self]
        · exact ih _ _ h hnd2 p he0

theorem refreshPipelinesGo_fails (env : Env) :
    ∀ (vals : List PipelineContext) (m : PMap PipelineContext),
      (∃ p ∈ vals, pipelineEntryFails env p) →
      refreshPipelinesGo env m vals = Except.error () := by
  intro vals
  induction vals with
  | nil =>
    intro m h
    rcases h with ⟨p, hpmem, _⟩
    cases hpmem
  | cons p0 rest ih =>
    intro m h
    cases hf : env.pipelineFetch p0.event_key p0.pipeline_key
    case err => simp only [refreshPipelinesGo, hf]
    case notFound => simp only [refreshPipelinesGo, hf]
    case found c =>
      rcases h with ⟨p, hpmem, hfail⟩
      rcases List.mem_cons.mp hpmem with he0 | he0
      · subst he0
        unfold pipelineEntryFails at hfail
        rw [hf] at hfail
        have hrc : refreshPipeline env c = Except.error () := hfail
        simp only [refreshPipelinesGo, hf, hrc]
      · simp only [refreshPipelinesGo, hf]
        cases hr : refreshPipeline env c
        case error => simp only [hr]
        case ok c2 =>
          simp only [hr]
          exact ih _ ⟨p, he0, hfail⟩

theorem refreshPipelinesGo_error_iff (env : Env) :
    ∀ (vals : List PipelineContext) (m m2 : PMap PipelineContext),
      refreshPipelinesGo env m vals = Except.error () ↔
        refreshPipelinesGo env m2 vals = Except.error () := by
  intro vals
  induction vals with
  | nil =>
    intro m m2
    constructor <;> (intro h; cases h)
  | cons p rest ih =>
    intro m m2
    cases hf : env.pipelineFetch p.event_key p.pipeline_key
    case err => simp only [refreshPipelinesGo, hf]
    case notFound => simp only [refreshPipelinesGo, hf]
    case found c =>
      simp only [refreshPipelinesGo, hf]
      cases hr : refreshPipeline env c
      case error => simp only [hr]
      case ok c2 =>
        simp only [hr]
        exact ih _ _

/-! ### Concrete reconstruction instances -/

/-- A stale embedded pipeline snapshot (scope event key e, pipeline key
p). -/
def pCtxOld : PipelineContext :=
  { event_key := "e", pipeline_key := "p", stage := PipelineStage.Created,
    status := Status.Succeeded, timestamp := 0 }

/-- The current pipeline document for the same scope, already
Finished. -/
def pCtxNew : PipelineContext :=
  { event_key := "e", pipeline_key := "p", stage := PipelineStage.Finished,
    status := Status.Succeeded, timestamp := 5 }

/-- A root in ProcessingPipelines with the stale snapshot embedded under
its pipeline key. -/
def rootPP : RootContext :=
  { event_key := "e",
    stage := RootStage.ProcessingPipelines [("p", pCtxOld)],
    status := Status.Succeeded, timestamp := 0 }

/-- An environment whose pipeline fetch finds the current document for
scope (e, p) and nothing else. -/
def envPP : Env :=
  { envNone with
    pipelineFetch := fun ek pk =>
      if ek = "e" ∧ pk = "p" then FetchRes.found pCtxNew
      else FetchRes.notFound }

theorem envPP_pipeline_matches : PipelineFetchMatches envPP := by
  intro ek pk c h
  simp only [envPP, envNone] at h
  split_ifs at h with hc
  cases h
  rcases hc with ⟨h1, h2⟩
  subst h1
  subst h2
  exact ⟨rfl, rfl⟩

theorem envPP_extractor_matches : ExtractorFetchMatches envPP := by
  intro ek pk xk c h
  simp only [envPP, envNone] at h
  cases h

/-- C2: for a root in ProcessingPipelines, reconstruction either
returns the root with every embedded pipeline entry replaced by the
freshly fetched (and itself extractor-refreshed) latest child document
— and, inside each refreshed pipeline in ExecutingExtractors, every
extractor entry replaced by its freshly fetched document — or, if any
single child fetch errors or finds no document at either level, fails
entirely, the candidate step leaving the state untouched so that zero
queue pushes occur for this event key; a mix of stale embedded entries
and fresh entries is never returned. -/
theorem C2_reconstruction_fail_closed (env : Env) (ek : String)
    (root : RootContext) (ps : PMap PipelineContext) (s : CycleState)
    (hp : PipelineFetchMatches env) (hx : ExtractorFetchMatches env)
    (hstage : root.stage = RootStage.ProcessingPipelines ps)
    (hkeyed : KeyedBy (fun p => p.pipeline_key) ps)
    (hnodup : (keysOf ps).Nodup) :
    (∀ root2, reconstruct env root = Except.ok root2 →
      ∃ ps2,
        root2 = { root with stage := RootStage.ProcessingPipelines ps2 } ∧
        keysOf ps2 = keysOf ps ∧
        ∀ k v, mapLookup k ps = some v →
          ∃ c c2,
            env.pipelineFetch v.event_key v.pipeline_key =
              FetchRes.found c ∧
            refreshPipeline env c = Except.ok c2 ∧
            mapLookup k ps2 = some c2) ∧
    (∀ c c2 exts, c.stage = PipelineStage.ExecutingExtractors exts →
      KeyedBy (fun e => e.extractor_key) exts → (keysOf exts).Nodup →
      refreshPipeline env c = Except.ok c2 →
      ∃ exts2, c2.stage = PipelineStage.ExecutingExtractors exts2 ∧
        keysOf exts2 = keysOf exts ∧
        ∀ k e, mapLookup k exts = some e →
          ∃ e2,
            env.extractorFetch e.event_key e.pipeline_key e.extractor_key =
              FetchRes.found e2 ∧
            mapLookup k exts2 = some e2) ∧
    ((∃ p ∈ valsOf ps, pipelineEntryFails env p) →
      reconstruct env root = Except.error () ∧
      (env.rootFetch ek = FetchRes.found root →
        stepCand env s (AggEntry.strId ek) = Except.ok s)) ∧
    (∀ c exts, c.stage = PipelineStage.ExecutingExtractors exts →
      (∃ e ∈ valsOf exts, extractorEntryFails env e) →
      refreshPipeline env c = Except.error ()) := by
  have hvalkeys : (valsOf ps).map (fun p => p.pipeline_key) = keysOf ps := by
    unfold valsOf keysOf
    rw [List.map_map]
    exact List.map_congr_left (fun pair hpair => hkeyed pair hpair)
  refine ⟨?_, ?_, ?_, ?_⟩
  · intro root2 h
    simp only [reconstruct, hstage] at h
    cases hrp : refreshPipelines env ps
    case error =>
      rw [hrp] at h
      cases h
    case ok ps2 =>
      rw [hrp] at h
      cases h
      refine ⟨ps2, rfl, ?_, ?_⟩
      · apply refreshPipelinesGo_keys env hp (valsOf ps) ps ps2 hrp
        intro p hpv
        rcases List.mem_map.mp hpv with ⟨pair, hpair, hpe⟩
        have hkk : pair.2.pipeline_key = pair.1 := hkeyed pair hpair
        rw [← hpe, hkk]
        exact List.mem_map_of_mem _ hpair
      · intro k v hlk
        have hmem := mapLookup_eq_some_mem hlk
        have hvv : v ∈ valsOf ps := List.mem_map_of_mem _ hmem
        have hkv : v.pipeline_key = k := hkeyed (k, v) hmem
        obtain ⟨c, c2, hfc, hrc, hlc⟩ :=
          refreshPipelinesGo_refreshes env hp (valsOf ps) ps ps2 hrp
            (by rw [hvalkeys]; exact hnodup) v hvv
        rw [hkv] at hlc
        exact ⟨c, c2, hfc, hrc, hlc⟩
  · intro c c2 exts hst hkeyedE hnodupE hr
    have hvalkeysE : (valsOf exts).map (fun e => e.extractor_key) =
        keysOf exts := by
      unfold valsOf keysOf
      rw [List.map_map]
      exact List.map_congr_left (fun pair hpair => hkeyedE pair hpair)
    simp only [refreshPipeline, hst] at hr
    cases hre : refreshExtractors env exts
    case error =>
      rw [hre] at hr
      cases hr
    case ok exts2 =>
      rw [hre] at hr
      cases hr
      refine ⟨exts2, rfl, ?_, ?_⟩
      · apply refreshExtractorsGo_keys env hx (valsOf exts) exts exts2 hre
        intro e hev
        rcases List.mem_map.mp hev with ⟨pair, hpair, hpe⟩
        have hkk : pair.2.extractor_key = pair.1 := hkeyedE pair hpair
        rw [← hpe, hkk]
        exact List.mem_map_of_mem _ hpair
      · intro k e hlk
        have hmem := mapLookup_eq_some_mem hlk
        have hev : e ∈ valsOf exts := List.mem_map_of_mem _ hmem
        have hke : e.extractor_key = k := hkeyedE (k, e) hmem
        obtain ⟨e2, hfe, hle⟩ :=
          refreshExtractorsGo_refreshes env hx (valsOf exts) exts exts2 hre
            (by rw [hvalkeysE]; exact hnodupE) e hev
        rw [hke] at hle
        exact ⟨e2, hfe, hle⟩
  · intro hex
    have herr : refreshPipelines env ps = Except.error () :=
      refreshPipelinesGo_fails env (valsOf ps) ps hex
    have hrec : reconstruct env root = Except.error () := by
      simp only [reconstruct, hstage, herr]
      rfl
    refine ⟨hrec, ?_⟩
    intro hroot
    simp [stepCand, hroot, hrec]
  · intro c exts hst hex
    have herr : refreshExtractors env exts = Except.error () :=
      refreshExtractorsGo_fails env (valsOf exts) exts hex
    simp only [refreshPipeline, hst, herr]
    rfl

theorem C2_reconstruction_fail_closed_witness :
    ∃ ps2,
      reconstruct envPP rootPP =
        Except.ok { rootPP with stage := RootStage.ProcessingPipelines ps2 } ∧
      mapLookup "p" ps2 = some pCtxNew ∧ keysOf ps2 = ["p"] := by
  have hmain := C2_reconstruction_fail_closed envPP "e" rootPP
    [("p", pCtxOld)] { queue := [], count := 0, pushes := [] }
    envPP_pipeline_matches envPP_extractor_matches rfl
    (by
      intro q hq
      have h2 := List.mem_singleton.mp hq
      subst h2
      rfl)
    (by decide)
  obtain ⟨ps2, heq, hkeys, hlook⟩ := hmain.1
    { rootPP with stage := RootStage.ProcessingPipelines [("p", pCtxNew)] }
    rfl
  have hstageEq : RootStage.ProcessingPipelines [("p", pCtxNew)] =
      RootStage.ProcessingPipelines ps2 := congrArg RootContext.stage heq
  injection hstageEq with h3
  subst h3
  exact ⟨[("p", pCtxNew)], rfl, rfl, rfl⟩

/-- C10: the re-fetch filter for each embedded pipeline entry is built
from the value's own key fields rather than the map key (whether
reconstruction fails is invariant under renaming the map keys); under
the documented invariant that each map key equals its value's own
pipeline key, and with fetches honouring their filters, every entry is
replaced in place so the refreshed map has exactly the original keys;
and without that invariant a stale entry survives next to the freshly
inserted one, as the concrete instance shows. -/
theorem C10_refetch_keyed_by_value (env : Env)
    (ps qs : PMap PipelineContext) :
    (valsOf ps = valsOf qs →
      (refreshPipelines env ps = Except.error () ↔
        refreshPipelines env qs = Except.error ())) ∧
    (PipelineFetchMatches env → KeyedBy (fun p => p.pipeline_key) ps →
      ∀ ps2, refreshPipelines env ps = Except.ok ps2 →
        keysOf ps2 = keysOf ps) ∧
    refreshPipelines envPP [("wrong", pCtxOld)] =
      Except.ok [("wrong", pCtxOld), ("p", pCtxNew)] := by
  refine ⟨?_, ?_, ?_⟩
  · intro hv
    unfold refreshPipelines
    rw [hv]
    exact refreshPipelinesGo_error_iff env (valsOf qs) ps qs
  · intro hp hkeyed ps2 h
    apply refreshPipelinesGo_keys env hp (valsOf ps) ps ps2 h
    intro p hpv
    rcases List.mem_map.mp hpv with ⟨pair, hpair, hpe⟩
    have hkk : pair.2.pipeline_key = pair.1 := hkeyed pair hpair
    rw [← hpe, hkk]
    exact List.mem_map_of_mem _ hpair
  · rfl

theorem C10_refetch_keyed_by_value_witness :
    keysOf [("p", pCtxNew)] = keysOf [("p", pCtxOld)] ∧
    (refreshPipelines envPP [("a", pCtxOld)] = Except.error () ↔
      refreshPipelines envPP [("b", pCtxOld)] = Except.error ()) :=
  ⟨(C10_refetch_keyed_by_value envPP [("p", pCtxOld)] [("p", pCtxOld)]).2.1
      envPP_pipeline_matches
      (fun q hq => by
        have h2 := List.mem_singleton.mp hq
        subst h2
        rfl)
      [("p", pCtxNew)] rfl,
   (C10_refetch_keyed_by_value envPP [("a", pCtxOld)] [("b", pCtxOld)]).1
      rfl⟩

/-! ### Counter-resetter lemmas -/

theorem resetterTrace_length (key : String) (secs : Nat) :
    ∀ outs : List Bool,
      (resetterTrace key secs outs).length = 2 * outs.length := by
  intro outs
  induction outs with
  | nil => rfl
  | cons ok rest ih =>
    simp only [resetterTrace, List.length_cons, ih]
    omega

theorem resetterTrace_sleep_mem (key : String) (secs : Nat) :
    ∀ (outs : List Bool) (n : Nat),
      TaskAction.sleepSecs n ∈ resetterTrace key secs outs → n = secs := by
  intro outs
  induction outs with
  | nil =>
    intro n h
    cases h
  | cons ok rest ih =>
    intro n h
    rcases List.mem_cons.mp h with h1 | h1
    · cases h1
    · rcases List.mem_cons.mp h1 with h2 | h2
      · injection h2 with h3
      · exact ih n h2

theorem resetterTrace_no_log (key : String) (secs : Nat) :
    ∀ outs : List Bool, TaskAction.logError ∉ resetterTrace key secs outs := by
  intro outs
  induction outs with
  | nil =>
    intro h
    cases h
  | cons ok rest ih =>
    intro h
    rcases List.mem_cons.mp h with h1 | h1
    · cases h1
    · rcases List.mem_cons.mp h1 with h2 | h2
      · cases h2
      · exact ih h2

/-- C7 counterexample: at a concrete iteration whose deletion fails,
the counter-resetter trace is exactly the deletion attempt followed by
the fixed sleep and holds no log action: the deletion result is bound
to an underscore and silently discarded (watchdog_client.rs lines 60
and 69 contain no log call), refuting the clause that each iteration's
deletion failure is logged. -/
theorem C7_silent_discard_counterexample :
    resetterTrace "k" 1 [false] =
      [TaskAction.delAttempt "k" false, TaskAction.sleepSecs 1] ∧
    TaskAction.logError ∉ resetterTrace "k" 1 [false] ∧
    TaskAction.logError ∉ resetterTrace "k" 60 [false, false] :=
  ⟨rfl, by decide, by decide⟩

/-- C7 amended: each counter-resetter iteration is one deletion attempt
of the task's key followed by the task's fixed sleep, whatever the
deletion outcome was: a failed deletion never shortens the trace (its
length is two actions per iteration for every outcome pattern), never
changes the cadence (every sleep in the trace is the fixed duration),
and is NOT logged (the result is discarded silently: the trace never
holds a log action); the event-throughput task sleeps one second per
iteration and the API-throughput task sixty. -/
theorem C7_counter_resetters (key : String) (secs : Nat)
    (outs : List Bool) (ok : Bool) :
    (resetterTrace key secs (ok :: outs) =
      TaskAction.delAttempt key ok :: TaskAction.sleepSecs secs ::
        resetterTrace key secs outs) ∧
    ((resetterTrace key secs outs).length = 2 * outs.length) ∧
    (∀ n, TaskAction.sleepSecs n ∈ resetterTrace key secs outs →
      n = secs) ∧
    (∀ n, TaskAction.sleepSecs n ∈ eventThroughputResetter key outs →
      n = 1) ∧
    (∀ n, TaskAction.sleepSecs n ∈ apiThroughputResetter key outs →
      n = 60) ∧
    TaskAction.logError ∉ resetterTrace key secs outs ∧
    TaskAction.logError ∉ eventThroughputResetter key outs ∧
    TaskAction.logError ∉ apiThroughputResetter key outs :=
  ⟨rfl, resetterTrace_length key secs outs,
   resetterTrace_sleep_mem key secs outs,
   resetterTrace_sleep_mem key 1 outs,
   resetterTrace_sleep_mem key 60 outs,
   resetterTrace_no_log key secs outs,
   resetterTrace_no_log key 1 outs,
   resetterTrace_no_log key 60 outs⟩

theorem C7_counter_resetters_witness :
    resetterTrace "k" 60 [false] =
      TaskAction.delAttempt "k" false :: TaskAction.sleepSecs 60 ::
        resetterTrace "k" 60 [] ∧
    (resetterTrace "k" 60 [true, false]).length = 4 ∧
    (60 : Nat) = 60 ∧
    TaskAction.logError ∉ resetterTrace "k" 60 [true, false] :=
  ⟨(C7_counter_resetters "k" 60 [] false).1,
   (C7_counter_resetters "k" 60 [true, false] true).2.1,
   (C7_counter_resetters "k" 60 [true] true).2.2.2.2.1 60 (by decide),
   (C7_counter_resetters "k" 60 [true, false] true).2.2.2.2.2.1⟩

end Watchdog
